import Mathlib

/- The arithmetic of ℚ is marked irreducible upstream, which blocks
evaluation of closed rational terms by `decide`; restore the default
reducibility for it (the definitions themselves are unchanged). -/
set_option allowUnsafeReducibility true
attribute [semireducible] Rat.mul Rat.inv Rat.add Rat.sub

/-
Verification of the transparent skill-matching engine of Kampu-Hire
(app/services/skills_scorer.py and app/services/text_utils.py) and of the
decision-fusion policy described in the design document.

Strings are modelled as lists of ASCII characters; Python floats are
modelled as rationals.  Python dicts are modelled as association lists
with in-place update (later writes to an existing key replace the stored
value, new keys are appended), which matches insertion-order semantics.
-/

namespace KampuHire

abbrev Str := List Char

def lowerStr (s : Str) : Str := s.map Char.toLower

/-- Python `\s` on ASCII text: space, tab, newline, carriage return,
vertical tab, form feed. -/
def isPySpace (c : Char) : Bool :=
  c = ' ' || c = '\t' || c = '\n' || c = '\r' || c = '\x0b' || c = '\x0c'

/-- Python `\w` on ASCII text: alphanumerics and underscore. -/
def isWordChar (c : Char) : Bool := c.isAlphanum || c = '_'

/-- Python `str.strip()`: remove leading and trailing whitespace. -/
def stripStr (s : Str) : Str :=
  ((s.dropWhile isPySpace).reverse.dropWhile isPySpace).reverse

/-- Python `text.split('\n')`. -/
def splitNl : Str → List Str
  | [] => [[]]
  | c :: rest =>
    if c = '\n' then [] :: splitNl rest
    else
      match splitNl rest with
      | [] => [[c]]
      | l :: ls => (c :: l) :: ls

/-- `'\n'.join(bufs)`. -/
def joinNl : List Str → Str
  | [] => []
  | [l] => l
  | l :: ls => l ++ '\n' :: joinNl ls

/-- The section kinds recognised by `SECTION_HEADS`, plus the default
kind `other`. -/
inductive SecName where
  | skills | experience | projects | summary | education | other
deriving DecidableEq, Repr, Fintype

/-- Case-insensitive anchored match of a literal alternative followed by a
word boundary: the pattern is a prefix of the lower-cased line and the next
character (if any) is not a word character.  Every alternative in
`SECTION_HEADS` ends in a word character, so `\b` reduces to this test. -/
def startsHeadCI (pat : Str) (s : Str) : Bool :=
  pat.isPrefixOf (lowerStr s) &&
    (match (lowerStr s).drop pat.length with
     | [] => true
     | c :: _ => !isWordChar c)

/-- The `SECTION_HEADS` table: each regex `^(a|b|...)\b` is rendered as its
list of literal alternatives (`projects?` as its two expansions). -/
def headerAlts : List (SecName × List Str) :=
  [ (.skills, [("skills").toList, ("technical skills").toList]),
    (.experience, [("experience").toList, ("work experience").toList,
                   ("professional experience").toList]),
    (.projects, [("projects").toList, ("project").toList]),
    (.summary, [("summary").toList, ("profile").toList, ("objective").toList]),
    (.education, [("education").toList, ("educational background").toList]) ]

/-- First section kind whose header pattern matches the (stripped) line. -/
def headerOf (ln : Str) : Option SecName :=
  headerAlts.findSome? (fun p =>
    if p.2.any (fun pat => startsHeadCI pat ln) then some p.1 else none)

/-- The line loop of `split_sections`: accumulate non-header lines into the
open buffer, and on a header close the current buffer (if non-empty) and
open a new section of the matched kind. -/
def sectionLoop : List Str → SecName → List Str → List (SecName × List Str)
  | [], name, buf => if buf.isEmpty then [] else [(name, buf)]
  | ln :: rest, name, buf =>
    match headerOf ln with
    | some k => (if buf.isEmpty then [] else [(name, buf)]) ++ sectionLoop rest k []
    | none => sectionLoop rest name (buf ++ [ln])

/-- `split_sections`: split on newlines, strip each line, run the loop from
kind `other` with an empty buffer, join each buffer with newlines; if no
section was produced, fall back to a single `other` section holding the
whole original text. -/
def split_sections (text : Str) : List (SecName × Str) :=
  let lines := (splitNl text).map stripStr
  let secs := sectionLoop lines .other []
  if secs.isEmpty then [(.other, text)]
  else secs.map (fun p => (p.1, joinNl p.2))

/-- Worker for `tokenize`: maximal runs of word characters
(`re.findall(r'\b\w+\b', ...)`).  `cur` holds the current run reversed. -/
def tokAux : Str → Str → List Str
  | cur, [] => if cur.isEmpty then [] else [cur.reverse]
  | cur, c :: rest =>
    if isWordChar c then tokAux (c :: cur) rest
    else if cur.isEmpty then tokAux [] rest
    else cur.reverse :: tokAux [] rest

/-- `tokenize(txt)`: word-character runs of the lower-cased text. -/
def tokenize (txt : Str) : List Str := tokAux [] (lowerStr txt)

/-- The ordered suffix list of `simple_stem`. -/
def suffixes : List Str :=
  [("ing").toList, ("ers").toList, ("er").toList, ("ed").toList, ("s").toList]

/-- The suffix loop of `simple_stem`: the length guard is re-tested in each
iteration, exactly as in the source. -/
def stemLoop (t : Str) : List Str → Str
  | [] => t
  | suf :: rest =>
    if t.length > 4 && suf.isSuffixOf t then t.take (t.length - suf.length)
    else stemLoop t rest

/-- `simple_stem(token)`. -/
def simple_stem (token : Str) : Str := stemLoop (lowerStr token) suffixes

/-! ## Phrase matching -/

/-- The character class `[-_/]` whose runs are collapsed to a single space
when building `sec_norm`. -/
def isDashClass (c : Char) : Bool := c = '-' || c = '_' || c = '/'

/-- Worker for `normDash`; the flag records whether we are inside a run of
dash-class characters (only the first character of a run emits a space). -/
def normDashAux : Bool → Str → Str
  | _, [] => []
  | inRun, c :: rest =>
    if isDashClass c then
      if inRun then normDashAux true rest else ' ' :: normDashAux true rest
    else c :: normDashAux false rest

/-- `re.sub(r"[-_/]+", " ", sec_lower)`. -/
def normDash (s : Str) : Str := normDashAux false s

/-- The separator class `[-_\./,\s]` of the phrase-match pattern.  Note that
it contains the period, which the design text omits. -/
def isSepClass (c : Char) : Bool :=
  c = '-' || c = '_' || c = '.' || c = '/' || c = ',' || isPySpace c

/-- The separator list named by the specification sentence: hyphen,
underscore, slash, comma, or whitespace (no period). -/
def specSep (c : Char) : Bool :=
  c = '-' || c = '_' || c = '/' || c = ',' || isPySpace c

/-- Trailing `\b` after the last word of the phrase pattern: the next
character, if any, is not a word character. -/
def endBoundary : Str → Bool
  | [] => true
  | c :: _ => !isWordChar c

/-- Match the word list of the phrase pattern at the start of `s`: each word
is a literal prefix, consecutive words are separated by a non-empty run of
separator-class characters (the regex `sepclass+` with backtracking: any
run length can be tried), and the final word is followed by a word
boundary. -/
def flexParts (sep : Char → Bool) : List Str → Str → Bool
  | [], _ => false
  | [p], s => p.isPrefixOf s && endBoundary (s.drop p.length)
  | p :: q :: ps, s =>
    p.isPrefixOf s &&
      (let rest := s.drop p.length
       (List.range rest.length).any (fun j =>
         ((rest.take (j + 1)).all sep) && flexParts sep (q :: ps) (rest.drop (j + 1))))

/-- `re.search` position scan with the leading `\b`: try every position
whose preceding character is not a word character (`prevWord` tracks the
previous character's wordness; the scan starts at a virtual non-word
boundary). -/
def flexScan (sep : Char → Bool) (parts : List Str) : Bool → Str → Bool
  | _, [] => false
  | prevWord, c :: rest =>
    ((!prevWord) && flexParts sep parts (c :: rest)) ||
      flexScan sep parts (isWordChar c) rest

/-- `phrase_match(phrase, sec_norm)`. -/
def phrase_match (phrase : Str) (secNorm : Str) : Bool :=
  let parts := tokenize phrase
  if parts.isEmpty then false else flexScan isSepClass parts false secNorm

/-! Specification-side reading of the phrase-match sentence, used to compare
against `phrase_match`: the constituent words appear, in order, in the
normalized text, separated by non-empty runs drawn from a separator set,
delimited by word boundaries on each side.  It is phrased through explicit
decompositions of the text rather than through a scan. -/

/-- Try every split of `s` into a prefix and the remaining suffix. -/
def anySplit (s : Str) (P : Str → Str → Bool) : Bool :=
  (List.range (s.length + 1)).any (fun k => P (s.take k) (s.drop k))

/-- The text before the first word ends at a word boundary: it is empty or
its last character is not a word character. -/
def preBoundary (pre : Str) : Bool :=
  match pre.reverse with
  | [] => true
  | c :: _ => !isWordChar c

/-- The words appear at the start of `s`, in order, separated by non-empty
runs consisting solely of separator characters, the last word followed by a
word boundary. -/
def chainWords (sep : Char → Bool) : List Str → Str → Bool
  | [], _ => false
  | [p], s => p.isPrefixOf s && endBoundary (s.drop p.length)
  | p :: q :: ps, s =>
    p.isPrefixOf s &&
      anySplit (s.drop p.length) (fun r rest2 =>
        (!r.isEmpty) && r.all sep && chainWords sep (q :: ps) rest2)

/-- The specification sentence as a predicate on (phrase, normalized text),
parametric in the separator set. -/
def specPhraseOccurs (sep : Char → Bool) (phrase : Str) (secNorm : Str) : Bool :=
  let parts := tokenize phrase
  (!parts.isEmpty) &&
    anySplit secNorm (fun pre rest => preBoundary pre && chainWords sep parts rest)

/-! ## Static tables and dictionaries -/

/-- `DEFAULT_ALIASES`. -/
def DEFAULT_ALIASES : List (Str × List Str) :=
  [ (("ps").toList, [("photoshop").toList, ("adobe photoshop").toList]),
    (("ai").toList, [("illustrator").toList, ("adobe illustrator").toList]),
    (("pr").toList, [("premiere").toList, ("adobe premiere").toList]),
    (("ae").toList, [("after effects").toList, ("adobe after effects").toList]),
    (("js").toList, [("javascript").toList]),
    (("ts").toList, [("typescript").toList]),
    (("teacher").toList, [("teaching").toList, ("instructor").toList,
      ("lecturer").toList, ("tutor").toList]),
    (("english").toList, [("esl").toList, ("efl").toList, ("elt").toList,
      ("eap").toList, ("english language").toList]),
    (("lesson planning").toList, [("lesson plan").toList, ("lesson plans").toList,
      ("planning lessons").toList]),
    (("classroom management").toList, [("class management").toList,
      ("behaviour management").toList, ("behavior management").toList,
      ("classroom discipline").toList]),
    (("curriculum development").toList, [("curriculum design").toList,
      ("syllabus design").toList, ("course design").toList,
      ("curriculum planning").toList]),
    (("assessment").toList, [("evaluation").toList, ("testing").toList,
      ("examination").toList, ("grading").toList]),
    (("reading").toList, [("reading comprehension").toList]),
    (("writing").toList, [("writing skills").toList]) ]

/-- `SECTION_WEIGHTS`. -/
def SECTION_WEIGHTS : List (SecName × ℚ) :=
  [ (.skills, 2), (.experience, 3/2), (.projects, 6/5),
    (.summary, 1), (.education, 0), (.other, 1) ]

/-- Dict lookup on a section-weight table. -/
def lookupSec : List (SecName × ℚ) → SecName → Option ℚ
  | [], _ => none
  | p :: rest, n => if p.1 = n then some p.2 else lookupSec rest n

/-- Dict lookup on a string-keyed table. -/
def lookupStr : List (Str × ℚ) → Str → Option ℚ
  | [], _ => none
  | p :: rest, k => if p.1 = k then some p.2 else lookupStr rest k

/-- Alias lookup (`aliases.get(key, [])` without the default). -/
def lookupAlias : List (Str × List Str) → Str → Option (List Str)
  | [], _ => none
  | p :: rest, k => if p.1 = k then some p.2 else lookupAlias rest k

/-- Dict assignment `d[k] = v`: replace in place if the key is present,
append otherwise. -/
def dictSet : List (Str × ℚ) → Str → ℚ → List (Str × ℚ)
  | [], k, v => [(k, v)]
  | p :: rest, k, v => if p.1 = k then (k, v) :: rest else p :: dictSet rest k v

/-- Dict assignment for section-weight tables. -/
def dictSetSec : List (SecName × ℚ) → SecName → ℚ → List (SecName × ℚ)
  | [], k, v => [(k, v)]
  | p :: rest, k, v => if p.1 = k then (k, v) :: rest else p :: dictSetSec rest k v

/-- Binary maximum on rationals, written out so that it evaluates by
kernel reduction. -/
def qmax (a b : ℚ) : ℚ := if a ≤ b then b else a

/-- Binary minimum on rationals, written out so that it evaluates by
kernel reduction. -/
def qmin (a b : ℚ) : ℚ := if a ≤ b then a else b

/-- `max(weights.values())`; the empty case yields the fallback 1.0 of
`max(weights.values()) if weights else 1.0` (the table is non-empty in all
reachable calls). -/
def maxValues (w : List (SecName × ℚ)) : ℚ :=
  match w.map (fun p => p.2) with
  | [] => 1
  | v :: vs => vs.foldl qmax v

/-! ## extract_skills -/

/-- The per-section precomputation of `extract_skills`: section kind,
`sec_norm` (lower-cased, dash runs collapsed), and the stemmed token list
(a Python set; only membership and prefix queries are made, which are
insensitive to order and multiplicity). -/
def secDataOf (sections : List (SecName × Str)) : List (SecName × Str × List Str) :=
  sections.map (fun p =>
    (p.1, normDash (lowerStr p.2), (tokenize p.2).map simple_stem))

/-- The per-keyword body of the `for kw in keywords` loop: candidate list
from the alias table, best section weight over all sections and candidates,
normalised by the table maximum (0 when that maximum is 0, and 0 for an
empty or whitespace keyword). -/
def kwValue (secData : List (SecName × Str × List Str))
    (weights : List (SecName × ℚ)) (maxW : ℚ)
    (aliases : List (Str × List Str)) (kw : Str) : ℚ :=
  let base := stripStr kw
  if base.isEmpty then 0
  else
    let cands := base :: ((lookupAlias aliases (lowerStr base)).getD [])
    let best := secData.foldl (fun b sd =>
      cands.foldl (fun b2 cand =>
        if (stripStr cand).contains ' ' then
          if phrase_match cand sd.2.1 then qmax b2 ((lookupSec weights sd.1).getD 1)
          else b2
        else
          let stem := simple_stem cand
          if stem ∈ sd.2.2 ||
              (decide (3 ≤ stem.length) && sd.2.2.any (fun tok => stem.isPrefixOf tok)) then
            qmax b2 ((lookupSec weights sd.1).getD 1)
          else b2) b) 0
    if maxW = 0 then 0 else best / maxW

/-- `extract_skills(text, keywords, aliases, section_weights)`.  The `or`
defaults of the Python signature are rendered by the empty list: an empty
`aliases` behaves as `{}` and an empty `section_weights` falls back to
`SECTION_WEIGHTS`. -/
def extract_skills (text : Str) (keywords : List Str)
    (aliases : List (Str × List Str)) (section_weights : List (SecName × ℚ)) :
    List (Str × ℚ) :=
  let secData := secDataOf (split_sections text)
  let weights := if section_weights.isEmpty then SECTION_WEIGHTS else section_weights
  let maxW := maxValues weights
  keywords.foldl (fun out kw => dictSet out kw (kwValue secData weights maxW aliases kw)) []

/-! ## anonymize_text

Each `re.sub(pattern, repl, t)` is rendered by a left-to-right scan that,
at every position, asks a matcher for the length of the match starting
there (replacing it and resuming after it) or advances one character.
Matchers receive the previous original character so that `\b` can be
tested.  All the patterns of `anonymize_text` match at least one
character. -/

/-- Wordness of an optional previous character (start of string counts as
non-word). -/
def wordish : Option Char → Bool
  | none => false
  | some c => isWordChar c

/-- Fuel-indexed scan-and-substitute; the fuel is the string length, and
every step consumes at least one character. -/
def subAllAux (matcher : Option Char → Str → Option Nat) (repl : Str) :
    Nat → Option Char → Str → Str
  | 0, _, s => s
  | _ + 1, _, [] => []
  | fuel + 1, prev, c :: rest =>
    match matcher prev (c :: rest) with
    | some n =>
      if n = 0 then c :: subAllAux matcher repl fuel (some c) rest
      else
        repl ++ subAllAux matcher repl fuel
          (((c :: rest).take n).getLast?) ((c :: rest).drop n)
    | none => c :: subAllAux matcher repl fuel (some c) rest

/-- `re.sub` with a matcher: replace every non-overlapping leftmost match. -/
def subAll (matcher : Option Char → Str → Option Nat) (repl : Str) (s : Str) : Str :=
  subAllAux matcher repl s.length none s

/-- Matcher for `(?i)label\s*[:\-].*?(\n|$)` (used with `name` and
`education`): the label case-insensitively, optional whitespace, a colon or
hyphen, then lazily up to and including the first newline (or the end of
the string; `.` cannot cross a newline, so the lazy body stops at the first
one). -/
def labelLineMatcher (label : Str) (_prev : Option Char) (s : Str) : Option Nat :=
  if lowerStr (s.take label.length) = label && label.length ≤ s.length then
    let rest1 := s.drop label.length
    let ws := rest1.takeWhile isPySpace
    match rest1.drop ws.length with
    | c :: r =>
      if c = ':' || c = '-' then
        let body := (r.takeWhile (fun d => !(d = '\n'))).length
        some (label.length + ws.length + 1 + body +
          (if body < r.length then 1 else 0))
      else none
    | [] => none
  else none

/-- Local-part class `[A-Za-z0-9._%+-]` of the email pattern. -/
def isLocalChar (c : Char) : Bool :=
  c.isAlpha || c.isDigit || c = '.' || c = '_' || c = '%' || c = '+' || c = '-'

/-- Domain class `[A-Za-z0-9.-]` of the email pattern. -/
def isDomChar (c : Char) : Bool := c.isAlpha || c.isDigit || c = '.' || c = '-'

/-- Backtracking of `[A-Za-z0-9.-]+\.[A-Za-z]{2,}` inside the maximal
domain-class run `D`: the greedy domain part shrinks until the next
character is a dot followed by at least two letters; the trailing letters
are then taken greedily.  The argument is the candidate dot index, tried
from high to low, and the result is the matched length within `D`. -/
def emailDotSearch (D : Str) : Nat → Option Nat
  | 0 => none
  | p + 1 =>
    match D.drop (p + 1) with
    | '.' :: afterDot =>
      let letters := (afterDot.takeWhile Char.isAlpha).length
      if 2 ≤ letters then some ((p + 1) + 1 + letters)
      else emailDotSearch D p
    | _ => emailDotSearch D p

/-- Matcher for the email pattern. -/
def emailMatcher (_prev : Option Char) (s : Str) : Option Nat :=
  let L := s.takeWhile isLocalChar
  if L.isEmpty then none
  else
    match s.drop L.length with
    | '@' :: after =>
      let D := after.takeWhile isDomChar
      match emailDotSearch D (D.length - 1) with
      | some dlen => some (L.length + 1 + dlen)
      | none => none
    | _ => none

/-- Class `[\d\s().-]` of the phone pattern. -/
def isPhoneClass (c : Char) : Bool :=
  c.isDigit || isPySpace c || c = '(' || c = ')' || c = '.' || c = '-'

/-- Backtracking of `[\d\s().-]{6,}\b` inside the maximal class run `R`
following the first digit: the greedy run shrinks (never below 6) until a
word boundary holds at its end.  `rest` is the text after the first digit;
the argument is the candidate run length. -/
def phoneRunSearch (rest : Str) (R : Str) : Nat → Option Nat
  | 0 => none
  | len + 1 =>
    if len + 1 < 6 then none
    else
      match (R.take (len + 1)).getLast? with
      | none => none
      | some lastc =>
        if isWordChar lastc ≠ wordish ((rest.drop (len + 1)).head?) then
          some (len + 1)
        else phoneRunSearch rest R len

/-- Matcher for `\b\+?\d[\d\s().-]{6,}\b`.  When the match starts at a plus
sign, the leading `\b` sits between the previous character and the
non-word `+`, so it requires the previous character to be a word
character; when it starts at a digit it requires a non-word (or absent)
previous character. -/
def phoneMatcher (prev : Option Char) (s : Str) : Option Nat :=
  match s with
  | [] => none
  | c :: rest =>
    if c = '+' then
      if wordish prev then
        match rest with
        | d :: rest2 =>
          if d.isDigit then
            let R := rest2.takeWhile isPhoneClass
            match phoneRunSearch rest2 R R.length with
            | some len => some (2 + len)
            | none => none
          else none
        | [] => none
      else none
    else if c.isDigit && !(wordish prev) then
      let R := rest.takeWhile isPhoneClass
      match phoneRunSearch rest R R.length with
      | some len => some (1 + len)
      | none => none
    else none

/-- Matcher for the configured-name pattern
`\b(name1|name2|...)\b` (case-insensitive, alternatives in list order;
an empty list renders the never-matching `a^` pattern). -/
def nameMatcher (names : List Str) (prev : Option Char) (s : Str) : Option Nat :=
  match s with
  | [] => none
  | c :: _ =>
    if wordish prev ≠ isWordChar c then
      names.findSome? (fun n =>
        if n.isEmpty then none
        else if lowerStr (s.take n.length) = lowerStr n && n.length ≤ s.length then
          let lastWord := match n.getLast? with
            | some lc => isWordChar lc
            | none => false
          if lastWord ≠ wordish ((s.drop n.length).head?) then some n.length
          else none
        else none)
    else none

/-- Matcher for `\s+`. -/
def wsMatcher (_prev : Option Char) (s : Str) : Option Nat :=
  let r := (s.takeWhile isPySpace).length
  if r = 0 then none else some r

/-- `anonymize_text(text)` for string input, parametric in the configured
name list (loaded from data files outside the scored sources; the empty
list reproduces the no-name-files behaviour). -/
def anonymize_text (names : List Str) (text : Str) : Str :=
  let t := text
  let t := subAll (labelLineMatcher (("name").toList)) ([' ']) t
  let t := subAll emailMatcher ([' ']) t
  let t := subAll phoneMatcher ([' ']) t
  let t := subAll (labelLineMatcher (("education").toList)) ([' ']) t
  let t := subAll (nameMatcher names) ((" name_token ").toList) t
  let t := subAll wsMatcher ([' ']) t
  stripStr t

/-- A Python run-time value passed as the `text` argument: either a string
or some non-string value (whose content is irrelevant to the code). -/
inductive PyValue where
  | str (s : Str)
  | nonString (tag : Nat)
deriving DecidableEq

/-- `isinstance(text, str)`. -/
def isStr : PyValue → Bool
  | .str _ => true
  | .nonString _ => false

/-- `anonymize_text` on an arbitrary run-time value: non-strings short
circuit to the empty string. -/
def anonymize_text_py (names : List Str) (v : PyValue) : Str :=
  match v with
  | .str s => anonymize_text names s
  | .nonString _ => []

/-! ## transparent_score -/

/-- The module-level static tables read by `transparent_score`, threaded
explicitly so that their preservation can be stated. -/
structure Globals where
  sectionWeights : List (SecName × ℚ)
  defaultAliases : List (Str × List Str)
deriving DecidableEq

def stdGlobals : Globals := ⟨SECTION_WEIGHTS, DEFAULT_ALIASES⟩

/-- The result dictionary of `transparent_score`. -/
structure ScoreResult where
  position : Str
  coverage : ℚ
  skills : List (Str × ℚ)
  reasons : List Str
deriving DecidableEq

/-- `', '.join(items)`. -/
def joinCommaSep : List Str → Str
  | [] => []
  | [x] => x
  | x :: xs => x ++ (", ").toList ++ joinCommaSep xs

/-- The per-call copy `sw = dict(SECTION_WEIGHTS)` of `transparent_score`
together with its two adjustments: under `skill_only`, education is zeroed
and summary capped at 0.8; a non-empty caller override is then written
entry by entry (`sw.update(section_weights)`); `section_weights = []`
renders the falsy `None`/`{}` argument. -/
def swEffective (g : Globals) (skill_only : Bool)
    (section_weights : List (SecName × ℚ)) : List (SecName × ℚ) :=
  let sw := g.sectionWeights
  let sw := if skill_only then
      let sw2 := dictSetSec sw .education 0
      dictSetSec sw2 .summary (qmin ((lookupSec sw2 .summary).getD 0) (4/5))
    else sw
  if section_weights.isEmpty then sw
  else section_weights.foldl (fun d p => dictSetSec d p.1 p.2) sw

/-- The body of `transparent_score` after the anonymization line: the
adjusted per-call weight copy, `extract_skills`, and the aggregation of
coverage and reasons. -/
def scoreBody (g : Globals) (t : Str) (position : Str) (keywords : List Str)
    (skill_only : Bool) (section_weights : List (SecName × ℚ)) : ScoreResult :=
  let sw := swEffective g skill_only section_weights
  let skills := extract_skills t keywords g.defaultAliases sw
  let coverage := ((skills.map (fun p => p.2)).sum) / ((max keywords.length 1 : ℕ) : ℚ)
  let present := (skills.filter (fun p => 0 < p.2)).map (fun p => p.1)
  let missing := (skills.filter (fun p => p.2 = 0)).map (fun p => p.1)
  let reasons :=
    (if present.isEmpty then [] else [("Matched: ").toList ++ joinCommaSep present]) ++
      (if missing.isEmpty then [] else [("Missing: ").toList ++ joinCommaSep missing])
  { position := position, coverage := coverage, skills := skills, reasons := reasons }

/-- `transparent_score` with the static tables threaded as state: the
tables are only read (the copy `sw` receives all writes), so the state
component is returned unchanged. -/
def transparent_score_st (g : Globals) (names : List Str) (text : Str)
    (position : Str) (keywords : List Str) (skill_only : Bool)
    (section_weights : List (SecName × ℚ)) : ScoreResult × Globals :=
  let t := anonymize_text names text
  (scoreBody g t position keywords skill_only section_weights, g)

/-- `transparent_score(text, position, keywords, skill_only, section_weights)`
with the module tables at their initial values. -/
def transparent_score (names : List Str) (text : Str) (position : Str)
    (keywords : List Str) (skill_only : Bool)
    (section_weights : List (SecName × ℚ)) : ScoreResult :=
  (transparent_score_st stdGlobals names text position keywords skill_only
    section_weights).1

/-- The scoring pipeline with no anonymization pass at all, used to state
that `transparent_score` anonymizes exactly once, before sectionizing. -/
def score_without_anonymize (t : Str) (position : Str) (keywords : List Str)
    (skill_only : Bool) (section_weights : List (SecName × ℚ)) : ScoreResult :=
  scoreBody stdGlobals t position keywords skill_only section_weights

/-- `transparent_score` on an arbitrary run-time `text` value: the
anonymization step maps non-strings to the empty string and scoring
proceeds on it. -/
def transparent_score_py (names : List Str) (text : PyValue) (position : Str)
    (keywords : List Str) (skill_only : Bool)
    (section_weights : List (SecName × ℚ)) : ScoreResult :=
  scoreBody stdGlobals (anonymize_text_py names text) position keywords
    skill_only section_weights

/-! ## Further specification-side definitions -/

/-- The specification sentence for `simple_stem`: lower-case; when the
length exceeds 4 and some listed suffix matches, remove exactly one
trailing suffix, the first matching one, otherwise return the lower-cased
token unchanged.  `stemSpecFirst` picks the first matching suffix. -/
def stemSpecFirst (t : Str) : List Str → Str
  | [] => t
  | suf :: rest =>
    if suf.isSuffixOf t then t.take (t.length - suf.length)
    else stemSpecFirst t rest

def stem_spec (token : Str) : Str :=
  let t := lowerStr token
  if t.length ≤ 4 then t else stemSpecFirst t suffixes

/-- The stripped lines of the input that are not section headers. -/
def nonHeaderLines (text : Str) : List Str :=
  ((splitNl text).map stripStr).filter (fun l => !(headerOf l).isSome)

/-- The concatenation, in order, of the lines of every section body. -/
def sectionBodyLines (secs : List (SecName × Str)) : List Str :=
  (secs.map (fun p => splitNl p.2)).flatten

/-! ## Decision fusion policy -/

/-- Classifier label values. -/
inductive ClfLabel where
  | suitable | notSuitable
deriving DecidableEq

/-- Modelled from the spec: the decision-fusion function of design section
4.5 is not among the scored sources (only this design text describes it).
These are base rules 1-4, evaluated top to bottom, first applicable rule
wins; `fit = 0.5*coverage + 0.5*llmScore`. -/
def baseDecision (modelOk : Option Bool) (llmPositive : Bool)
    (llmScore coverage : ℚ) : Bool :=
  let fit := (1/2 : ℚ) * coverage + (1/2 : ℚ) * llmScore
  match modelOk with
  | none => decide (llmScore ≥ 55/100) && llmPositive
  | some mok =>
    if mok && llmPositive then true
    else if !mok && !llmPositive then false
    else if llmPositive then
      decide (llmScore ≥ 7/10 ∧ coverage ≥ 45/100) || decide (fit ≥ 65/100)
    else !(decide (coverage < 2/5) && decide (llmScore < 55/100))

/-- Modelled from the spec: the classifier override of design section 4.5,
veto evaluated before rescue, both no-ops when their triggers are unmet;
the decision-fusion function itself is not among the scored sources. -/
def decideFusion (modelOk : Option Bool) (llmPositive : Bool)
    (llmScore coverage : ℚ) (classifier : Option (ClfLabel × ℚ)) : Bool :=
  let base := baseDecision modelOk llmPositive llmScore coverage
  match classifier with
  | none => base
  | some (label, conf) =>
    let afterVeto :=
      if label = ClfLabel.notSuitable ∧ conf ≥ 9/10 ∧ base = true then
        (if coverage ≥ 65/100 ∧ llmScore ≥ 3/4 then true else false)
      else base
    let afterRescue :=
      if label = ClfLabel.suitable ∧ conf ≥ 3/5 ∧ afterVeto = false then
        (if coverage ≥ 45/100 ∨ llmScore ≥ 65/100 then true else afterVeto)
      else afterVeto
    afterRescue

/-! ## Lemmas about stemming -/

theorem stemLoop_of_short (t : Str) (h : ¬ 4 < t.length) :
    ∀ l : List Str, stemLoop t l = t := by
  intro l
  induction l with
  | nil => rfl
  | cons suf rest ih =>
    simp only [stemLoop]
    rw [if_neg, ih]
    simp [h]

theorem stemLoop_of_long (t : Str) (h : 4 < t.length) :
    ∀ l : List Str, stemLoop t l = stemSpecFirst t l := by
  intro l
  induction l with
  | nil => rfl
  | cons suf rest ih =>
    simp only [stemLoop, stemSpecFirst, h, decide_true_eq_true]
    by_cases hs : suf.isSuffixOf t
    · simp [hs]
    · simp [hs, ih]

/-- C7: `simple_stem` equals the specification's description: lower-case,
and strip exactly one trailing suffix (the first matching of
`ing, ers, er, ed, s`) when the lower-cased token is longer than 4
characters, otherwise return the lower-cased token unchanged. -/
theorem c7_simple_stem_spec (token : Str) : simple_stem token = stem_spec token := by
  unfold simple_stem stem_spec
  by_cases h : 4 < (lowerStr token).length
  · rw [if_neg (by omega), stemLoop_of_long _ h]
  · rw [if_pos (by omega), stemLoop_of_short _ h]

/-! ## Decision fusion claims -/

/-- C1: whenever the base decision from rules 1-4 is true and the
classifier signal is present with label `not_suitable` and confidence at
least 0.90, the returned decision is exactly the veto outcome: false
unless coverage ≥ 0.65 and llmScore ≥ 0.75, in which case it stays true
(the rescue override, evaluated after the veto, cannot fire because the
label is not `suitable`). -/
theorem c1_veto_override (modelOk : Option Bool) (llmPositive : Bool)
    (llmScore coverage conf : ℚ)
    (hbase : baseDecision modelOk llmPositive llmScore coverage = true)
    (hconf : conf ≥ 9/10) :
    decideFusion modelOk llmPositive llmScore coverage
        (some (ClfLabel.notSuitable, conf)) =
      (if coverage ≥ 65/100 ∧ llmScore ≥ 3/4 then true else false) := by
  simp only [decideFusion, hbase]
  rw [if_neg (fun h => ClfLabel.noConfusion h.1)]
  rw [if_pos ⟨trivial, hconf, trivial⟩]

/-- Witness for C1 at the specification's own veto example: model and LLM
agree positively, classifier says `not_suitable` at 0.92, coverage 0.50
and llmScore 0.60 fail the protection test, so the decision is false. -/
theorem c1_veto_override_witness :
    decideFusion (some true) true (3/5) (1/2)
      (some (ClfLabel.notSuitable, 92/100)) = false := by
  rw [c1_veto_override (some true) true (3/5) (1/2) (92/100) (by decide) (by decide)]
  decide

/-! ## Sectionizer example claim -/

/-- C8: on the input `"Skills\npython, sql\nExperience\n3 years backend"`,
`split_sections` returns exactly the Skills and Experience sections with
their body lines, in order. -/
theorem c8_sectionizer_example :
    split_sections (("Skills\npython, sql\nExperience\n3 years backend").toList) =
      [(SecName.skills, ("python, sql").toList),
       (SecName.experience, ("3 years backend").toList)] := by decide

/-! ## Frame claim -/

/-- C9: a `transparent_score` call leaves the module-level static tables
(`SECTION_WEIGHTS` and `DEFAULT_ALIASES`, threaded as the `Globals`
state) unchanged for every input, including the skills-only flag and a
caller-supplied section-weight override: all adjustments go to the
per-call copy. -/
theorem c9_globals_unchanged (g : Globals) (names : List Str) (text : Str)
    (position : Str) (keywords : List Str) (skill_only : Bool)
    (section_weights : List (SecName × ℚ)) :
    (transparent_score_st g names text position keywords skill_only
      section_weights).2 = g := rfl

/-! ## Anonymization claims -/

/-- C5 counterexample: `anonymize_text` is not idempotent.  On
`"name 5551234567 :"` (with an empty configured-name list) the first pass
removes the phone number, leaving `"name :"`, and a second pass then
matches the `name\s*[:\-]...` rule and erases everything. -/
theorem c5_not_idempotent_counterexample :
    anonymize_text [] (anonymize_text [] (("name 5551234567 :").toList)) ≠
      anonymize_text [] (("name 5551234567 :").toList) := by decide

/-- C5 amended: `transparent_score` applies `anonymize_text` exactly once,
before sectionizing: its result is the anonymization-free scoring pipeline
applied to the anonymized text (idempotence of `anonymize_text` itself
fails, see the counterexample). -/
theorem c5_anonymize_once (names : List Str) (text position : Str)
    (keywords : List Str) (skill_only : Bool)
    (section_weights : List (SecName × ℚ)) :
    transparent_score names text position keywords skill_only section_weights =
      score_without_anonymize (anonymize_text names text) position keywords
        skill_only section_weights := rfl

/-- C10: a non-string `text` value short-circuits `anonymize_text` to the
empty string, and scoring then proceeds exactly as it would on an empty
resume text instead of failing. -/
theorem c10_nonstring_empty (names : List Str) (v : PyValue) (position : Str)
    (keywords : List Str) (skill_only : Bool)
    (section_weights : List (SecName × ℚ)) (h : isStr v = false) :
    anonymize_text_py names v = [] ∧
      transparent_score_py names v position keywords skill_only section_weights =
        transparent_score_py names (PyValue.str []) position keywords skill_only
          section_weights := by
  cases v with
  | str s => simp [isStr] at h
  | nonString tag => exact ⟨rfl, rfl⟩

/-- Witness for C10 at a concrete non-string value. -/
theorem c10_nonstring_empty_witness :
    anonymize_text_py [] (PyValue.nonString 0) = [] ∧
      transparent_score_py [] (PyValue.nonString 0) (("p").toList)
          [("sql").toList] false [] =
        transparent_score_py [] (PyValue.str []) (("p").toList)
          [("sql").toList] false [] :=
  c10_nonstring_empty [] (PyValue.nonString 0) (("p").toList)
    [("sql").toList] false [] (by decide)

/-! ## Dictionary lemmas -/

theorem lookupStr_dictSet_self (d : List (Str × ℚ)) (k : Str) (v : ℚ) :
    lookupStr (dictSet d k v) k = some v := by
  induction d with
  | nil => simp [dictSet, lookupStr]
  | cons p rest ih =>
    by_cases h : p.1 = k
    · simp [dictSet, lookupStr, h]
    · simp [dictSet, lookupStr, h, ih]

theorem lookupStr_dictSet_other (d : List (Str × ℚ)) (k k2 : Str) (v : ℚ)
    (h : k2 ≠ k) : lookupStr (dictSet d k v) k2 = lookupStr d k2 := by
  induction d with
  | nil => simp [dictSet, lookupStr, Ne.symm h]
  | cons p rest ih =>
    by_cases hp : p.1 = k
    · have hp2 : ¬ p.1 = k2 := by rw [hp]; exact Ne.symm h
      simp [dictSet, lookupStr, hp, hp2, Ne.symm h]
    · simp only [dictSet, hp, if_neg]
      by_cases hp2 : p.1 = k2
      · simp [lookupStr, hp2]
      · simp [lookupStr, hp2, ih]

theorem dictSet_of_lookup_none (d : List (Str × ℚ)) (k : Str) (v : ℚ)
    (h : lookupStr d k = none) : dictSet d k v = d ++ [(k, v)] := by
  induction d with
  | nil => rfl
  | cons p rest ih =>
    by_cases hp : p.1 = k
    · simp [lookupStr, hp] at h
    · simp only [lookupStr, hp, if_neg] at h
      simp [dictSet, hp, ih h]

theorem lookupStr_append (a b : List (Str × ℚ)) (k : Str) (h : lookupStr a k = none) :
    lookupStr (a ++ b) k = lookupStr b k := by
  induction a with
  | nil => rfl
  | cons p rest ih =>
    by_cases hp : p.1 = k
    · simp [lookupStr, hp] at h
    · simp only [lookupStr, hp, if_neg] at h
      simp [lookupStr, hp, ih h]

theorem lookupStr_append_none (a b : List (Str × ℚ)) (k : Str)
    (ha : lookupStr a k = none) (hb : lookupStr b k = none) :
    lookupStr (a ++ b) k = none := by
  rw [lookupStr_append a b k ha, hb]

/-- The keyword loop of `extract_skills` under distinct keywords builds
exactly the list of `(keyword, value)` pairs in keyword order. -/
theorem foldl_dictSet_of_nodup (V : Str → ℚ) (kws : List Str) :
    ∀ acc : List (Str × ℚ), kws.Nodup → (∀ k ∈ kws, lookupStr acc k = none) →
      kws.foldl (fun out kw => dictSet out kw (V kw)) acc =
        acc ++ kws.map (fun k => (k, V k)) := by
  induction kws with
  | nil => intro acc _ _; simp
  | cons k rest ih =>
    intro acc hnd hacc
    have hk : lookupStr acc k = none := hacc k (by simp)
    have hset : dictSet acc k (V k) = acc ++ [(k, V k)] :=
      dictSet_of_lookup_none acc k (V k) hk
    have hrest : ∀ k2 ∈ rest, lookupStr (acc ++ [(k, V k)]) k2 = none := by
      intro k2 hk2
      have hne : k2 ≠ k := by
        intro he
        subst he
        exact (List.nodup_cons.mp hnd).1 hk2
      refine lookupStr_append_none _ _ _ (hacc k2 (by simp [hk2])) ?_
      simp [lookupStr, Ne.symm hne]
    calc (k :: rest).foldl (fun out kw => dictSet out kw (V kw)) acc
        = rest.foldl (fun out kw => dictSet out kw (V kw)) (acc ++ [(k, V k)]) := by
          simp [List.foldl_cons, hset]
      _ = (acc ++ [(k, V k)]) ++ rest.map (fun k2 => (k2, V k2)) :=
          ih _ (List.nodup_cons.mp hnd).2 hrest
      _ = acc ++ (k :: rest).map (fun k2 => (k2, V k2)) := by simp

/-- The keyword loop, with duplicates allowed: the final dictionary maps
each supplied keyword to its (deterministic) value. -/
theorem lookupStr_foldl_dictSet (V : Str → ℚ) (kws : List Str) :
    ∀ (acc : List (Str × ℚ)) (k : Str),
      lookupStr (kws.foldl (fun out kw => dictSet out kw (V kw)) acc) k =
        if k ∈ kws then some (V k) else lookupStr acc k := by
  induction kws with
  | nil => intro acc k; simp
  | cons k0 rest ih =>
    intro acc k
    rw [List.foldl_cons, ih]
    by_cases hr : k ∈ rest
    · simp [hr]
    · by_cases he : k = k0
      · subst he
        simp [hr, lookupStr_dictSet_self]
      · simp [hr, he, lookupStr_dictSet_other acc k0 k _ he]

/-- `extract_skills` under distinct keywords, in explicit form. -/
theorem extract_skills_of_nodup (text : Str) (kws : List Str)
    (aliases : List (Str × List Str)) (sw : List (SecName × ℚ))
    (h : kws.Nodup) :
    extract_skills text kws aliases sw =
      kws.map (fun k => (k,
        kwValue (secDataOf (split_sections text))
          (if sw.isEmpty then SECTION_WEIGHTS else sw)
          (maxValues (if sw.isEmpty then SECTION_WEIGHTS else sw)) aliases k)) := by
  unfold extract_skills
  exact foldl_dictSet_of_nodup _ kws [] h (fun k _ => rfl)

theorem lookupStr_map_pair (V : Str → ℚ) (kws : List Str) (k : Str) (h : k ∈ kws) :
    lookupStr (kws.map (fun k2 => (k2, V k2))) k = some (V k) := by
  induction kws with
  | nil => cases h
  | cons k0 rest ih =>
    by_cases he : k0 = k
    · subst he; simp [lookupStr]
    · have : k ∈ rest := by
        rcases List.mem_cons.mp h with h1 | h1
        · exact absurd h1.symm he
        · exact h1
      simp [lookupStr, he, ih this]

/-! ## Coverage claims (C2) -/

/-- C2 counterexample: with the duplicated keyword list
`["python", "python"]` on the resume text `"python"`, the returned
coverage is 1/4 while the arithmetic mean of the per-keyword scores over
the supplied list is 1/2: the skills dictionary collapses the duplicate,
but the divisor still counts both occurrences. -/
theorem c2_duplicate_keywords_counterexample :
    (transparent_score [] (("python").toList) (("p").toList)
        [("python").toList, ("python").toList] false []).coverage ≠
      (([("python").toList, ("python").toList].map (fun k =>
          (lookupStr (transparent_score [] (("python").toList) (("p").toList)
              [("python").toList, ("python").toList] false []).skills k).getD 0)).sum)
        / 2 := by decide

/-- C2 amended: for keyword lists without duplicate strings
(differently-cased strings are distinct), the returned coverage equals the
arithmetic mean of the per-keyword scores over the supplied list, and 0
when the list is empty. -/
theorem c2_coverage_mean_nodup (names : List Str) (text position : Str)
    (keywords : List Str) (skill_only : Bool)
    (section_weights : List (SecName × ℚ)) (h : keywords.Nodup) :
    (transparent_score names text position keywords skill_only
        section_weights).coverage =
      if keywords.isEmpty then 0
      else ((keywords.map (fun k =>
          (lookupStr (transparent_score names text position keywords skill_only
              section_weights).skills k).getD 0)).sum) / (keywords.length : ℚ) := by
  have he := extract_skills_of_nodup (anonymize_text names text) keywords
    stdGlobals.defaultAliases (swEffective stdGlobals skill_only section_weights) h
  have hskills : (transparent_score names text position keywords skill_only
      section_weights).skills =
      extract_skills (anonymize_text names text) keywords stdGlobals.defaultAliases
        (swEffective stdGlobals skill_only section_weights) := rfl
  have hcov : (transparent_score names text position keywords skill_only
      section_weights).coverage =
      (((extract_skills (anonymize_text names text) keywords stdGlobals.defaultAliases
          (swEffective stdGlobals skill_only section_weights)).map
        (fun p => p.2)).sum) / ((max keywords.length 1 : ℕ) : ℚ) := rfl
  rw [hcov, hskills, he]
  cases keywords with
  | nil => simp
  | cons k0 rest =>
    rw [show ((k0 :: rest).isEmpty) = false from rfl]
    simp only [Bool.false_eq_true, if_false]
    have hlen : (max (k0 :: rest).length 1 : ℕ) = (k0 :: rest).length :=
      max_eq_left (by simp [List.length_cons])
    rw [hlen]
    congr 1
    rw [List.map_map]
    refine congrArg List.sum (List.map_congr_left ?_)
    intro k hk
    rw [lookupStr_map_pair _ _ k hk]
    rfl

/-- Witness for C2 at the singleton keyword list `["python"]` on the
resume text `"python"`: coverage is the mean 1/2. -/
theorem c2_coverage_mean_nodup_witness :
    (transparent_score [] (("python").toList) (("p").toList)
      [("python").toList] false []).coverage = 1/2 := by
  rw [c2_coverage_mean_nodup [] (("python").toList) (("p").toList)
    [("python").toList] false [] (by decide)]
  decide

/-! ## Bounds lemmas for extract_skills (C3) -/

theorem qmax_eq_max (a b : ℚ) : qmax a b = max a b := by
  rw [max_def, qmax]

theorem le_foldl_qmax (l : List ℚ) : ∀ a : ℚ, a ≤ l.foldl qmax a := by
  induction l with
  | nil => intro a; exact le_refl a
  | cons x rest ih =>
    intro a
    calc a ≤ qmax a x := by rw [qmax_eq_max]; exact le_max_left a x
      _ ≤ rest.foldl qmax (qmax a x) := ih _

theorem mem_le_foldl_qmax (l : List ℚ) : ∀ (a x : ℚ), x ∈ l → x ≤ l.foldl qmax a := by
  induction l with
  | nil => intro a x h; cases h
  | cons y rest ih =>
    intro a x h
    rcases List.mem_cons.mp h with h1 | h1
    · subst h1
      calc x ≤ qmax a x := by rw [qmax_eq_max]; exact le_max_right a x
        _ ≤ rest.foldl qmax (qmax a x) := le_foldl_qmax rest _
    · exact ih _ x h1

theorem value_le_maxValues (w : List (SecName × ℚ)) (q : ℚ)
    (h : q ∈ w.map (fun p => p.2)) : q ≤ maxValues w := by
  cases w with
  | nil => cases h
  | cons p rest =>
    rcases List.mem_cons.mp h with h1 | h1
    · subst h1
      exact le_foldl_qmax _ _
    · exact mem_le_foldl_qmax _ _ _ h1

theorem lookupSec_mem (w : List (SecName × ℚ)) (n : SecName) (q : ℚ)
    (h : lookupSec w n = some q) : q ∈ w.map (fun p => p.2) := by
  induction w with
  | nil => cases h
  | cons p rest ih =>
    by_cases hp : p.1 = n
    · simp only [lookupSec, hp, if_pos, Option.some.injEq] at h
      simp [h.symm]
    · simp only [lookupSec, hp, if_neg] at h
      simp [ih h]

/-- A fold whose step keeps the accumulator inside an interval keeps its
result inside the interval. -/
theorem foldl_bound_of_step {α : Type} (l : List α) (f : ℚ → α → ℚ) (lo hi : ℚ)
    (hstep : ∀ b x, lo ≤ b → b ≤ hi → lo ≤ f b x ∧ f b x ≤ hi) :
    ∀ b, lo ≤ b → b ≤ hi → lo ≤ l.foldl f b ∧ l.foldl f b ≤ hi := by
  induction l with
  | nil => intro b h1 h2; exact ⟨h1, h2⟩
  | cons x rest ih =>
    intro b h1 h2
    have hs := hstep b x h1 h2
    exact ih (f b x) hs.1 hs.2

/-! ## Per-keyword score bounds (C3) -/

/-- C3 counterexample: with the section-weight table `{skills: 0.5}` (no
entry for `other`), the keyword `python` on the header-less text
`"python"` scores `1.0 / 0.5 = 2`, outside [0,1]: the section lookup
falls back to the default weight 1.0, which exceeds the table maximum. -/
theorem c3_score_above_one_counterexample :
    lookupStr (extract_skills (("python").toList) [("python").toList] []
        [(SecName.skills, 1/2)]) (("python").toList) = some 2 ∧
      ¬ ((2:ℚ) ≤ 1) := by
  constructor
  · decide
  · norm_num

/-- C3 amended: for a section-weight table that has an entry for every
section kind, every per-keyword score returned by `extract_skills` lies
in [0,1]; it is 0 when the table's maximum value is 0, and 0 when the
keyword is empty or whitespace.  No sign condition on the weights is
needed: the best-weight fold starts at 0, so a positive best forces a
positive table maximum, and a negative table maximum forces a best (and
score) of 0. -/
theorem c3_score_bounds (text : Str) (kws : List Str)
    (aliases : List (Str × List Str)) (sw : List (SecName × ℚ))
    (hlk : ∀ n : SecName, (lookupSec sw n).isSome) (kw : Str) (q : ℚ)
    (hq : lookupStr (extract_skills text kws aliases sw) kw = some q) :
    (0 ≤ q ∧ q ≤ 1) ∧ (maxValues sw = 0 → q = 0) ∧
      (stripStr kw = [] → q = 0) := by
  have hswne : sw.isEmpty = false := by
    cases sw with
    | nil => exact absurd (hlk .skills) (by simp [lookupSec])
    | cons p rest => rfl
  rw [show extract_skills text kws aliases sw =
      kws.foldl (fun out k => dictSet out k
        (kwValue (secDataOf (split_sections text))
          (if sw.isEmpty then SECTION_WEIGHTS else sw)
          (maxValues (if sw.isEmpty then SECTION_WEIGHTS else sw)) aliases k)) []
      from rfl] at hq
  rw [lookupStr_foldl_dictSet] at hq
  rw [hswne] at hq
  simp only [Bool.false_eq_true, if_false] at hq
  by_cases hmem : kw ∈ kws
  · rw [if_pos hmem] at hq
    have hqv : q = kwValue (secDataOf (split_sections text)) sw (maxValues sw)
        aliases kw := by
      have := hq.symm
      simpa using this
    subst hqv
    unfold kwValue
    by_cases hbase : (stripStr kw).isEmpty
    · simp only [hbase, if_pos]
      norm_num
    · simp only [hbase, Bool.false_eq_true, if_false]
      by_cases hmw : maxValues sw = 0
      · simp only [hmw, if_pos]
        norm_num
      · simp only [hmw, if_neg, if_false]
        have hWbound : ∀ n : SecName,
            (lookupSec sw n).getD 1 ≤ maxValues sw := by
          intro n
          rcases Option.isSome_iff_exists.mp (hlk n) with ⟨w, hw⟩
          rw [hw]
          exact value_le_maxValues sw w (lookupSec_mem sw n w hw)
        have hhi : maxValues sw ≤ qmax 0 (maxValues sw) := by
          rw [qmax_eq_max]
          exact le_max_right 0 _
        have hbest := foldl_bound_of_step (secDataOf (split_sections text))
          (fun b sd =>
            ((stripStr kw :: (lookupAlias aliases (lowerStr (stripStr kw))).getD []).foldl
              (fun b2 cand =>
                if (stripStr cand).contains ' ' then
                  if phrase_match cand sd.2.1 then qmax b2 ((lookupSec sw sd.1).getD 1)
                  else b2
                else
                  if simple_stem cand ∈ sd.2.2 ||
                      (decide (3 ≤ (simple_stem cand).length) &&
                        sd.2.2.any (fun tok => (simple_stem cand).isPrefixOf tok)) then
                    qmax b2 ((lookupSec sw sd.1).getD 1)
                  else b2) b))
          0 (qmax 0 (maxValues sw))
          (fun b sd hb1 hb2 => by
            refine foldl_bound_of_step _ _ 0 (qmax 0 (maxValues sw)) ?_ b hb1 hb2
            intro b2 cand hc1 hc2
            have hqm : 0 ≤ qmax b2 ((lookupSec sw sd.1).getD 1) ∧
                qmax b2 ((lookupSec sw sd.1).getD 1) ≤ qmax 0 (maxValues sw) := by
              rw [qmax_eq_max]
              exact ⟨le_trans hc1 (le_max_left _ _),
                max_le hc2 (le_trans (hWbound sd.1) hhi)⟩
            by_cases h1 : (stripStr cand).contains ' '
            · by_cases h2 : phrase_match cand sd.2.1
              · simp only [h1, h2, if_pos]; exact hqm
              · simp only [h1, h2, Bool.false_eq_true, if_false, if_pos]
                exact ⟨hc1, hc2⟩
            · by_cases h2 : simple_stem cand ∈ sd.2.2 ||
                  (decide (3 ≤ (simple_stem cand).length) &&
                    sd.2.2.any (fun tok => (simple_stem cand).isPrefixOf tok))
              · simp only [h1, h2, Bool.false_eq_true, if_false, if_pos]
                exact hqm
              · simp only [h1, h2, Bool.false_eq_true, if_false]
                exact ⟨hc1, hc2⟩)
          0 (le_refl 0) (by rw [qmax_eq_max]; exact le_max_left 0 _)
        rcases lt_or_gt_of_ne hmw with hneg | hpos
        · have hhieq : qmax 0 (maxValues sw) = 0 := by
            rw [qmax_eq_max]
            exact max_eq_left (le_of_lt hneg)
          rw [hhieq] at hbest
          rw [le_antisymm hbest.2 hbest.1, zero_div]
          refine ⟨⟨le_refl 0, by norm_num⟩, fun h0 => h0.elim, fun hstrip => ?_⟩
          have hte : (stripStr kw).isEmpty = true := by rw [hstrip]; rfl
          exact absurd hte hbase
        · have hhieq : qmax 0 (maxValues sw) = maxValues sw := by
            rw [qmax_eq_max]
            exact max_eq_right (le_of_lt hpos)
          rw [hhieq] at hbest
          refine ⟨⟨?_, ?_⟩, ?_, ?_⟩
          · exact div_nonneg hbest.1 (le_of_lt hpos)
          · exact (div_le_one hpos).mpr hbest.2
          · intro h0; exact h0.elim
          · intro hstrip
            have hte : (stripStr kw).isEmpty = true := by rw [hstrip]; rfl
            exact absurd hte hbase
  · rw [if_neg hmem] at hq
    cases hq

/-- Witness for C3 at the default table `SECTION_WEIGHTS` (which has an
entry for all six kinds): the score 1/2 of `python` on the header-less
text `"python"` lies in [0,1]. -/
theorem c3_score_bounds_witness :
    (0 ≤ (1/2 : ℚ) ∧ (1/2 : ℚ) ≤ 1) ∧
      (maxValues SECTION_WEIGHTS = 0 → (1/2 : ℚ) = 0) ∧
      (stripStr (("python").toList) = [] → (1/2 : ℚ) = 0) :=
  c3_score_bounds (("python").toList) [("python").toList] [] SECTION_WEIGHTS
    (by decide) (("python").toList) (1/2) (by decide)

/-! ## Sectionizer partition lemmas (C4) -/

theorem sectionLoop_flatten (lines : List Str) :
    ∀ (name : SecName) (buf : List Str),
      ((sectionLoop lines name buf).map (fun p => p.2)).flatten =
        buf ++ lines.filter (fun l => !(headerOf l).isSome) := by
  induction lines with
  | nil =>
    intro name buf
    by_cases hb : buf.isEmpty
    · rw [List.isEmpty_iff.mp hb]
      simp [sectionLoop]
    · simp [sectionLoop, hb]
  | cons ln rest ih =>
    intro name buf
    cases hh : headerOf ln with
    | some k =>
      by_cases hb : buf.isEmpty
      · rw [List.isEmpty_iff.mp hb]
        simp [sectionLoop, hh, ih]
      · simp [sectionLoop, hh, hb, ih]
    | none =>
      simp [sectionLoop, hh, ih]

theorem sectionLoop_body_nonempty (lines : List Str) :
    ∀ (name : SecName) (buf : List Str) (sec : SecName × List Str),
      sec ∈ sectionLoop lines name buf → sec.2 ≠ [] := by
  induction lines with
  | nil =>
    intro name buf sec h
    by_cases hb : buf.isEmpty
    · simp [sectionLoop, hb] at h
    · simp only [sectionLoop, hb, Bool.false_eq_true, if_false] at h
      rw [List.mem_singleton.mp h]
      simpa [List.isEmpty_iff] using hb
  | cons ln rest ih =>
    intro name buf sec h
    cases hh : headerOf ln with
    | some k =>
      simp only [sectionLoop, hh] at h
      rcases List.mem_append.mp h with h1 | h1
      · by_cases hb : buf.isEmpty
        · simp [hb] at h1
        · simp only [hb, Bool.false_eq_true, if_false] at h1
          rw [List.mem_singleton.mp h1]
          simpa [List.isEmpty_iff] using hb
      · exact ih _ _ sec h1
    | none =>
      simp only [sectionLoop, hh] at h
      exact ih _ _ sec h

theorem sectionLoop_body_mem (lines : List Str) :
    ∀ (name : SecName) (buf : List Str) (sec : SecName × List Str),
      sec ∈ sectionLoop lines name buf →
        ∀ l ∈ sec.2, l ∈ buf ∨ l ∈ lines := by
  induction lines with
  | nil =>
    intro name buf sec h l hl
    by_cases hb : buf.isEmpty
    · simp [sectionLoop, hb] at h
    · simp only [sectionLoop, hb, Bool.false_eq_true, if_false] at h
      rw [List.mem_singleton.mp h] at hl
      exact Or.inl hl
  | cons ln rest ih =>
    intro name buf sec h l hl
    cases hh : headerOf ln with
    | some k =>
      simp only [sectionLoop, hh] at h
      rcases List.mem_append.mp h with h1 | h1
      · by_cases hb : buf.isEmpty
        · simp [hb] at h1
        · simp only [hb, Bool.false_eq_true, if_false] at h1
          rw [List.mem_singleton.mp h1] at hl
          exact Or.inl hl
      · rcases ih _ _ sec h1 l hl with h2 | h2
        · cases h2
        · exact Or.inr (by simp [h2])
    | none =>
      simp only [sectionLoop, hh] at h
      rcases ih _ _ sec h l hl with h2 | h2
      · rcases List.mem_append.mp h2 with h3 | h3
        · exact Or.inl h3
        · exact Or.inr (by simp [List.mem_singleton.mp h3])
      · exact Or.inr (by simp [h2])

theorem splitNl_ne_nil (t : Str) : splitNl t ≠ [] := by
  cases t with
  | nil => simp [splitNl]
  | cons c rest =>
    by_cases hc : c = '\n'
    · simp [splitNl, hc]
    · simp only [splitNl, hc, if_neg, if_false]
      cases splitNl rest with
      | nil => simp
      | cons x xs => simp

theorem splitNl_cons_of_ne (c : Char) (s : Str) (hc : ¬ c = '\n') :
    splitNl (c :: s) = (c :: (splitNl s).head!) :: (splitNl s).tail := by
  cases hsp : splitNl s with
  | nil => exact absurd hsp (splitNl_ne_nil s)
  | cons x xs => simp [splitNl, hc, hsp]

theorem splitNl_no_newline (t : Str) : ∀ l ∈ splitNl t, '\n' ∉ l := by
  induction t with
  | nil =>
    intro l hl
    rw [List.mem_singleton.mp hl]
    simp
  | cons c rest ih =>
    intro l hl
    by_cases hc : c = '\n'
    · simp only [splitNl, hc, if_pos] at hl
      rcases List.mem_cons.mp hl with h1 | h1
      · rw [h1]; simp
      · exact ih l h1
    · rw [splitNl_cons_of_ne c rest hc] at hl
      rcases List.mem_cons.mp hl with h1 | h1
      · rw [h1]
        intro hmem
        rcases List.mem_cons.mp hmem with h2 | h2
        · exact hc h2.symm
        · exact ih (splitNl rest).head!
            (List.head!_mem_self (splitNl_ne_nil rest)) h2
      · exact ih l ((List.tail_sublist _).mem h1)

theorem stripStr_no_newline (l : Str) (h : '\n' ∉ l) : '\n' ∉ stripStr l := by
  intro hmem
  apply h
  unfold stripStr at hmem
  have h1 := List.mem_reverse.mp hmem
  have h2 := (List.dropWhile_sublist _).mem h1
  have h3 := List.mem_reverse.mp h2
  exact (List.dropWhile_sublist _).mem h3

theorem splitNl_of_no_newline (l : Str) (h : '\n' ∉ l) : splitNl l = [l] := by
  induction l with
  | nil => rfl
  | cons c rest ih =>
    have hc : ¬ c = '\n' := fun he => h (by simp [he])
    have hrest : '\n' ∉ rest := fun hm => h (by simp [hm])
    rw [splitNl_cons_of_ne c rest hc, ih hrest]
    rfl

theorem splitNl_append_newline (x : Str) (t : Str) (h : '\n' ∉ x) :
    splitNl (x ++ '\n' :: t) = x :: splitNl t := by
  induction x with
  | nil => simp [splitNl]
  | cons c rest ih =>
    have hc : ¬ c = '\n' := fun he => h (by simp [he])
    have hrest : '\n' ∉ rest := fun hm => h (by simp [hm])
    rw [List.cons_append, splitNl_cons_of_ne c _ hc, ih hrest]
    rfl

theorem splitNl_joinNl (bufs : List Str) (hne : bufs ≠ [])
    (h : ∀ l ∈ bufs, '\n' ∉ l) : splitNl (joinNl bufs) = bufs := by
  induction bufs with
  | nil => exact absurd rfl hne
  | cons x rest ih =>
    cases rest with
    | nil =>
      show splitNl (joinNl [x]) = [x]
      rw [show joinNl [x] = x from rfl]
      exact splitNl_of_no_newline x (h x (by simp))
    | cons y ys =>
      rw [show joinNl (x :: y :: ys) = x ++ '\n' :: joinNl (y :: ys) from rfl]
      rw [splitNl_append_newline x _ (h x (by simp))]
      rw [ih (by simp) (fun l hl => h l (by simp [List.mem_cons.mp hl]))]

/-! ## Sectionizer partition claims (C4) -/

/-- C4 counterexample: on the input `"Skills"`, whose only line is a
header, `split_sections` falls back to a single `Other` section holding
the whole original text, so the concatenated bodies contain the header
line instead of discarding it (the non-header lines are empty). -/
theorem c4_all_header_counterexample :
    sectionBodyLines (split_sections (("Skills").toList)) ≠
      nonHeaderLines (("Skills").toList) := by decide

/-- C4 amended: for every input with at least one non-header (stripped)
line, concatenating the section bodies of `split_sections`, in order,
yields exactly the stripped non-header lines of the input in original
order; when every line is a header the fallback returns the whole
original text as a single `Other` section instead. -/
theorem c4_sectionizer_partition (text : Str)
    (h : nonHeaderLines text ≠ []) :
    sectionBodyLines (split_sections text) = nonHeaderLines text := by
  have hflat := sectionLoop_flatten ((splitNl text).map stripStr) .other []
  have hne : sectionLoop ((splitNl text).map stripStr) .other [] ≠ [] := by
    intro he
    apply h
    have : (([] : List Str) ++
        ((splitNl text).map stripStr).filter (fun l => !(headerOf l).isSome)) = [] := by
      rw [← hflat, he]
      rfl
    simpa [nonHeaderLines] using this
  unfold split_sections
  rw [if_neg (by simpa [List.isEmpty_iff] using hne)]
  unfold sectionBodyLines nonHeaderLines
  rw [List.map_map]
  have hjoin : ∀ sec ∈ sectionLoop ((splitNl text).map stripStr) .other [],
      splitNl (joinNl sec.2) = sec.2 := by
    intro sec hsec
    refine splitNl_joinNl sec.2
      (sectionLoop_body_nonempty _ _ _ sec hsec) ?_
    intro l hl
    rcases sectionLoop_body_mem _ _ _ sec hsec l hl with h1 | h1
    · cases h1
    · rcases List.mem_map.mp h1 with ⟨piece, hpiece, hpe⟩
      rw [← hpe]
      exact stripStr_no_newline piece (splitNl_no_newline text piece hpiece)
  calc ((sectionLoop ((splitNl text).map stripStr) .other []).map
          (fun p => splitNl (joinNl p.2))).flatten
      = ((sectionLoop ((splitNl text).map stripStr) .other []).map
          (fun p => p.2)).flatten := by
        refine congrArg List.flatten (List.map_congr_left ?_)
        intro sec hsec
        exact hjoin sec hsec
    _ = ((splitNl text).map stripStr).filter (fun l => !(headerOf l).isSome) := by
        rw [hflat]; rfl

/-- Witness for C4 on `"Skills\npython"`: the only body line is the
stripped non-header line `python`. -/
theorem c4_sectionizer_partition_witness :
    sectionBodyLines (split_sections (("Skills\npython").toList)) =
      nonHeaderLines (("Skills\npython").toList) :=
  c4_sectionizer_partition (("Skills\npython").toList) (by decide)

/-! ## Phrase-match characterization lemmas (C6) -/

theorem tokAux_ne_nil : ∀ (l cur : Str) (p : Str), p ∈ tokAux cur l → p ≠ [] := by
  intro l
  induction l with
  | nil =>
    intro cur p h
    cases cur with
    | nil => simp [tokAux] at h
    | cons c cs =>
      simp only [tokAux, List.isEmpty_cons, Bool.false_eq_true, if_false] at h
      rw [List.mem_singleton.mp h]
      simp
  | cons c rest ih =>
    intro cur p h
    by_cases hw : isWordChar c
    · simp only [tokAux, hw, if_pos] at h
      exact ih _ p h
    · simp only [tokAux, hw, Bool.false_eq_true, if_false] at h
      by_cases hc : cur.isEmpty
      · simp only [hc, if_pos] at h
        exact ih _ p h
      · simp only [hc, Bool.false_eq_true, if_false] at h
        rcases List.mem_cons.mp h with h1 | h1
        · rw [h1]
          intro he
          apply hc
          rw [List.isEmpty_iff]
          exact List.reverse_eq_nil_iff.mp he
        · exact ih _ p h1

theorem tokenize_ne_nil (s : Str) : ∀ p ∈ tokenize s, p ≠ [] :=
  fun p h => tokAux_ne_nil (lowerStr s) [] p h

theorem anySplit_iff (s : Str) (P : Str → Str → Bool) :
    anySplit s P = true ↔ ∃ pre rest, s = pre ++ rest ∧ P pre rest = true := by
  unfold anySplit
  rw [List.any_eq_true]
  constructor
  · rintro ⟨k, hk, hP⟩
    exact ⟨s.take k, s.drop k, (List.take_append_drop k s).symm, hP⟩
  · rintro ⟨pre, rest, heq, hP⟩
    refine ⟨pre.length, ?_, ?_⟩
    · rw [List.mem_range, heq, List.length_append]
      omega
    · rw [heq, List.take_left, List.drop_left]
      exact hP

theorem flexParts_nil_false (sep : Char → Bool) (parts : List Str)
    (hp : ∀ p ∈ parts, p ≠ []) : flexParts sep parts [] = false := by
  cases parts with
  | nil => rfl
  | cons p ps =>
    have hpne : p ≠ [] := hp p (by simp)
    cases ps with
    | nil =>
      simp only [flexParts, Bool.and_eq_false_iff]
      left
      cases p with
      | nil => exact absurd rfl hpne
      | cons c cs => rfl
    | cons q ps2 =>
      simp only [flexParts, Bool.and_eq_false_iff]
      left
      cases p with
      | nil => exact absurd rfl hpne
      | cons c cs => rfl

theorem flexParts_iff_chainWords (sep : Char → Bool) :
    ∀ (parts : List Str) (s : Str),
      flexParts sep parts s = true ↔ chainWords sep parts s = true := by
  intro parts
  induction parts with
  | nil => intro s; exact Iff.rfl
  | cons p ps ih =>
    cases ps with
    | nil => intro s; exact Iff.rfl
    | cons q ps2 =>
      intro s
      simp only [flexParts, chainWords, Bool.and_eq_true]
      refine and_congr_right (fun _ => ?_)
      rw [List.any_eq_true, anySplit_iff]
      constructor
      · rintro ⟨j, hj, hcond⟩
        rw [List.mem_range] at hj
        rw [Bool.and_eq_true] at hcond
        refine ⟨(s.drop p.length).take (j+1), (s.drop p.length).drop (j+1),
          (List.take_append_drop _ _).symm, ?_⟩
        have htne : ((s.drop p.length).take (j+1)).isEmpty = false := by
          rw [List.isEmpty_eq_false_iff_exists_mem]
          have hne : s.drop p.length ≠ [] := by
            intro he
            rw [he] at hj
            simp at hj
          cases hd : s.drop p.length with
          | nil => exact absurd hd hne
          | cons y ys =>
            exact ⟨y, by rw [List.take_succ_cons]; exact List.mem_cons_self y _⟩
        rw [Bool.and_eq_true, Bool.and_eq_true]
        exact ⟨⟨by rw [htne]; rfl, hcond.1⟩, (ih _).mp hcond.2⟩
      · rintro ⟨pre, rest2, heq, hcond⟩
        rw [Bool.and_eq_true, Bool.and_eq_true] at hcond
        have hpre : pre ≠ [] := by
          intro he
          rw [he] at hcond
          simp at hcond
        have hlen : pre.length ≠ 0 := fun he => hpre (List.length_eq_zero.mp he)
        refine ⟨pre.length - 1, ?_, ?_⟩
        · rw [List.mem_range, heq, List.length_append]
          omega
        · have hl1 : pre.length - 1 + 1 = pre.length := by omega
          rw [Bool.and_eq_true, hl1, heq, List.take_left, List.drop_left]
          exact ⟨hcond.1.2, (ih _).mpr hcond.2⟩

theorem preBoundary_cons (c : Char) (pre : Str) :
    preBoundary (c :: pre) =
      if pre.isEmpty then !isWordChar c else preBoundary pre := by
  cases pre with
  | nil => rfl
  | cons d ds =>
    simp only [List.isEmpty_cons, Bool.false_eq_true, if_false]
    cases hrev : (d :: ds).reverse with
    | nil => exact absurd hrev (by simp)
    | cons x xs =>
      unfold preBoundary
      rw [show (c :: d :: ds).reverse = (d :: ds).reverse ++ [c] by simp]
      rw [hrev]
      rfl

theorem flexScan_iff (sep : Char → Bool) (parts : List Str)
    (hp : ∀ p ∈ parts, p ≠ []) :
    ∀ (s : Str) (b : Bool),
      flexScan sep parts b s = true ↔
        ∃ pre rest, s = pre ++ rest ∧
          (if pre.isEmpty then !b else preBoundary pre) = true ∧
          flexParts sep parts rest = true := by
  intro s
  induction s with
  | nil =>
    intro b
    simp only [flexScan, Bool.false_eq_true, false_iff]
    rintro ⟨pre, rest, heq, _, hfl⟩
    rcases List.append_eq_nil.mp heq.symm with ⟨hpre, hrest⟩
    rw [hrest, flexParts_nil_false sep parts hp] at hfl
    cases hfl
  | cons c s2 ih =>
    intro b
    simp only [flexScan, Bool.or_eq_true, Bool.and_eq_true]
    constructor
    · rintro (⟨hb, hfl⟩ | hscan)
      · exact ⟨[], c :: s2, rfl, by simpa using hb, hfl⟩
      · rcases (ih (isWordChar c)).mp hscan with ⟨pre2, rest, heq, hbd, hfl⟩
        refine ⟨c :: pre2, rest, by rw [heq, List.cons_append], ?_, hfl⟩
        rw [show (c :: pre2).isEmpty = false from rfl]
        simp only [Bool.false_eq_true, if_false]
        rw [preBoundary_cons]
        exact hbd
    · rintro ⟨pre, rest, heq, hbd, hfl⟩
      cases pre with
      | nil =>
        left
        rw [List.nil_append] at heq
        refine ⟨by simpa using hbd, ?_⟩
        rw [heq]
        exact hfl
      | cons d pre2 =>
        right
        rw [List.cons_append] at heq
        have hc : c = d := (List.cons.injEq _ _ _ _ ▸ heq).1
        have hs2 : s2 = pre2 ++ rest := (List.cons.injEq _ _ _ _ ▸ heq).2
        refine (ih (isWordChar c)).mpr ⟨pre2, rest, hs2, ?_, hfl⟩
        rw [show (d :: pre2).isEmpty = false from rfl] at hbd
        simp only [Bool.false_eq_true, if_false] at hbd
        rw [preBoundary_cons] at hbd
        rw [hc]
        exact hbd

/-! ## Phrase-match claims (C6) -/

/-- C6 counterexample: on the normalized section text `machine.learning`,
the multi-word candidate `machine learning` is phrase-matched by the code
(the separator class of the pattern contains the period), while the
specification's separator list (hyphen, underscore, slash, comma,
whitespace — and no other character) does not admit it. -/
theorem c6_period_separator_counterexample :
    phrase_match (("machine learning").toList) (("machine.learning").toList) = true ∧
      specPhraseOccurs specSep (("machine learning").toList)
        (("machine.learning").toList) = false := by decide

/-- C6 amended: a phrase match is registered exactly when the candidate's
constituent words appear in the normalized section text, in order, at word
boundaries, separated by non-empty runs consisting solely of hyphen,
underscore, period, slash, comma, or whitespace characters (the period
must be included in the separator list). -/
theorem c6_phrase_match_characterization (phrase : Str) (secNorm : Str) :
    phrase_match phrase secNorm = specPhraseOccurs isSepClass phrase secNorm := by
  unfold phrase_match specPhraseOccurs
  cases htok : tokenize phrase with
  | nil => simp
  | cons p ps =>
    have hp : ∀ q ∈ p :: ps, q ≠ [] := fun q hq =>
      tokenize_ne_nil phrase q (htok ▸ hq)
    simp only [List.isEmpty_cons, Bool.false_eq_true, if_false, Bool.not_false,
      Bool.true_and]
    apply Bool.eq_iff_iff.mpr
    rw [flexScan_iff isSepClass (p :: ps) hp secNorm false, anySplit_iff]
    constructor
    · rintro ⟨pre, rest, heq, hbd, hfl⟩
      refine ⟨pre, rest, heq, ?_⟩
      rw [Bool.and_eq_true]
      have hbd2 : preBoundary pre = true := by
        cases pre with
        | nil => rfl
        | cons d ds => simpa using hbd
      exact ⟨hbd2, (flexParts_iff_chainWords isSepClass (p :: ps) rest).mp hfl⟩
    · rintro ⟨pre, rest, heq, hPP⟩
      rw [Bool.and_eq_true] at hPP
      refine ⟨pre, rest, heq, ?_, (flexParts_iff_chainWords isSepClass (p :: ps) rest).mpr hPP.2⟩
      cases pre with
      | nil => rfl
      | cons d ds => simpa using hPP.1

end KampuHire
